import Mathlib

/-!
# Verification of the GameBot Bulls-and-Cows engine

Shallow embedding of the guess/feedback/elimination engine that the three
source variants (`src/gamebot/app.py`, `src/bully_bot/app.py`,
`src/Cowculator/app.py`) share, together with proofs and refutations of the
frozen claims about it.

Modelling conventions:
* a code is a `List ℕ` of digits; Python tuples from
  `itertools.permutations(range(10), 4)` become 4-element lists;
* Python float arithmetic (`math.log2`, sums of floats) is idealised over `ℝ`;
* `random.sample(pop, k)` (uniform draw without replacement) is modelled as
  `perm.take k` for an arbitrary permutation `perm` of `pop`;
* the Streamlit session (`game`, `entropy_history`, `game_over`, …) becomes an
  explicit `Session` record and `submitGuess` step function; chat messages are
  presentation-only and are not part of the model.
-/

namespace GameBot

/-- A code is a list of digits. -/
abbrev Code := List Nat

/-- The validity contract on codes used throughout the spec: exactly four
pairwise-distinct digits 0–9. -/
def validCode (g : Code) : Prop :=
  g.length = 4 ∧ (∀ d ∈ g, d < 10) ∧ g.Nodup

instance (g : Code) : Decidable (validCode g) := by
  unfold validCode; infer_instance

/-- Embeds `BullsAndCows.get_feedback` (identical in all three variants):
`bulls = sum(g == s for g, s in zip(guess, code))` counts positions where the
two sequences agree; the double generator
`sum(g == s for g in guess for s in code)` sums, over each `g` in `guess`, the
number of occurrences of `g` in `code`, and `cows` subtracts `bulls` from it. -/
def get_feedback (guess code : Code) : Nat × Nat :=
  let bulls := (guess.zip code).countP (fun p => p.1 == p.2)
  let cows := (guess.map (fun g => code.count g)).sum - bulls
  (bulls, cows)

/-- Embeds `BullsAndCows.update_possibilities`: keep exactly the combinations
whose feedback against the guess equals the observed `(bulls, cows)`. -/
def update_possibilities (possible : List Code) (guess : Code)
    (bulls cows : Nat) : List Code :=
  possible.filter (fun combo => get_feedback guess combo == (bulls, cows))

/-- Embeds `list(permutations(range(10), 4))`: all 4-tuples of distinct digits,
in lexicographic order (the order `itertools.permutations` produces on the
sorted input `range(10)`). -/
def allCodes : List Code :=
  ((List.range 10).flatMap fun a =>
    (List.range 10).flatMap fun b =>
      (List.range 10).flatMap fun c =>
        (List.range 10).map fun d => [a, b, c, d]).filter fun l => l.Nodup

/-- Embeds `BullsAndCows.calculate_entropy` (identical in all three variants),
idealising Python floats as reals: `probabilities = [1/n] * n`, then
`entropy = sum(p * math.log2(1/p) for p in probabilities)`, with `0` returned
when no combinations remain. -/
noncomputable def calculate_entropy (possible : List Code) : ℝ :=
  let n := possible.length
  if n = 0 then 0
  else ((List.replicate n ((1 : ℝ) / n)).map fun p => p * Real.logb 2 (1 / p)).sum

/-- Embeds `BullsAndCows.entropy_reduction` (gamebot) and
`calculate_mutual_information` (Cowculator): `prev_entropy - current_entropy`. -/
def entropy_reduction (prevEntropy currentEntropy : ℝ) : ℝ :=
  prevEntropy - currentEntropy

/-- Embeds `gamebot`'s `BullsAndCows.suggest_next_guesses`:
`sample_size = min(10, len(possible_combinations))`, then
`random.sample(possible_combinations, sample_size) if possible_combinations
else []`.  `random.sample(pop, k)` (uniform draw of `k` distinct elements) is
modelled as the `k`-prefix of `perm`, an arbitrary permutation of `pop`. -/
def suggest_next_guesses (possible perm : List Code) : List Code :=
  let sample_size := min 10 possible.length
  if possible.isEmpty then [] else perm.take sample_size

/-- Embeds `Cowculator`'s `BullsAndCows.suggest_next_guesses`:
`num_suggestions = min(10, len(possible_combinations))`, then always
`random.sample(possible_combinations, num_suggestions)`. -/
def cow_suggest_next_guesses (possible perm : List Code) : List Code :=
  perm.take (min 10 possible.length)

/-- Embeds `bully_bot`'s `BullsAndCows.suggest_next_guesses`:
`random.sample(possible_combinations, 3)` when at least 3 combinations remain,
otherwise the empty list. -/
def bully_suggest_next_guesses (possible perm : List Code) : List Code :=
  if 3 ≤ possible.length then perm.take 3 else []

/-- The engine-relevant part of the Streamlit session of `gamebot`'s `main`:
the `BullsAndCows` object's fields (`secret`, `possible_combinations`,
`attempts`) together with `st.session_state`'s `entropy_history`,
`entropy_reduction_history` and `game_over`.  Chat messages are
presentation-only and not modelled. -/
structure Session where
  secret : Code
  possible : List Code
  attempts : Nat
  entropyHistory : List ℝ
  entropyReductionHistory : List ℝ
  gameOver : Bool

/-- Embeds the validation in `main`: the guess is rejected when
`len(user_input) != 4 or not user_input.isdigit() or len(set(user_input)) != 4`
(stated here positively, by De Morgan). -/
def validInput (input : List Char) : Bool :=
  input.length == 4 && input.all Char.isDigit && input.dedup.length == 4

/-- Embeds `guess = [int(x) for x in user_input]`: each digit character maps to
its value (`'0'` has code point 48). -/
def parseGuess (input : List Char) : Code :=
  input.map fun c => c.toNat - 48

/-- Embeds session creation in `main`: a fresh `BullsAndCows()` (the random
secret is a parameter here), `entropy_history = [game.calculate_entropy()]`,
`entropy_reduction_history = [0]`, `game_over = False`. -/
noncomputable def initSession (secret : Code) : Session :=
  { secret := secret
    possible := allCodes
    attempts := 0
    entropyHistory := [calculate_entropy allCodes]
    entropyReductionHistory := [0]
    gameOver := false }

/-- The body of the valid-guess branch of `main`: read the previous entropy,
increment `attempts`, score against the secret, filter the possibilities,
append the new entropy and reduction, and set `game_over` exactly when
`bulls == 4`. -/
noncomputable def stepAccepted (sess : Session) (input : List Char) : Session :=
  let guess := parseGuess input
  let prevEntropy := sess.entropyHistory.getLastD 0
  let fb := get_feedback guess sess.secret
  let possible2 := update_possibilities sess.possible guess fb.1 fb.2
  let entropy := calculate_entropy possible2
  let reduction := entropy_reduction prevEntropy entropy
  { sess with
    attempts := sess.attempts + 1
    possible := possible2
    entropyHistory := sess.entropyHistory ++ [entropy]
    entropyReductionHistory := sess.entropyReductionHistory ++ [reduction]
    gameOver := fb.1 == 4 }

/-- Embeds one user input processed by `gamebot`'s `main`: input is only read
while the game is not over; an invalid guess leaves the engine state unchanged
(only a chat message is emitted); a valid guess runs `stepAccepted`. -/
noncomputable def submitGuess (sess : Session) (input : List Char) : Session :=
  if sess.gameOver then sess
  else if validInput input then stepAccepted sess input
  else sess

/-- A whole session: fold `submitGuess` over the sequence of user inputs,
starting from a fresh session. -/
noncomputable def runGame (secret : Code) (inputs : List (List Char)) : Session :=
  inputs.foldl submitGuess (initSession secret)

/-- Embeds the `Restart Game` button: the old session is replaced wholesale by
a freshly initialised one (with a newly drawn secret, here a parameter). -/
noncomputable def resetGame (_old : Session) (newSecret : Code) : Session :=
  initSession newSecret

/-- Number of inputs along a run that are accepted (valid and processed while
the game is in progress); these are exactly the inputs that increment
`attempts`. -/
noncomputable def countAccepted : Session → List (List Char) → Nat
  | _, [] => 0
  | sess, input :: rest =>
    (if sess.gameOver = false ∧ validInput input = true then 1 else 0)
      + countAccepted (submitGuess sess input) rest

/-- Spec-side bulls count, following the spec's words: the number of positions
`i` with `guess[i] == code[i]` (positions of a length-4 code are `0,…,3`; the
out-of-range default 10 is never a digit). -/
def specBulls (guess code : Code) : Nat :=
  (List.range 4).countP fun i => guess.getD i 10 == code.getD i 10

/-- Spec-side feedback, following the spec's words: bulls as the number of
agreeing positions, cows as the number of digit values occurring in both codes
(a set intersection, no value counted twice) minus bulls. -/
def specFeedback (guess code : Code) : Nat × Nat :=
  (specBulls guess code,
    (guess.toFinset ∩ code.toFinset).card - specBulls guess code)

example : get_feedback [1,2,3,4] [1,3,2,5] = (1, 2) := by decide

example : get_feedback [1,2,3,4] [1,2,3,4] = (4, 0) := by decide

example : update_possibilities [[1,3,2,5], [1,2,3,4], [5,6,7,8]] [1,2,3,4] 1 2
    = [[1,3,2,5]] := by decide

example : validInput ['1','2','3','4'] = true ∧ validInput ['1','1','2','3'] = false
    ∧ validInput ['1','2','3'] = false ∧ validInput ['1','2','3','a'] = false := by
  decide

example : parseGuess ['1','2','3','4'] = [1,2,3,4] := by decide

/-! ## Helper lemmas -/

theorem get_feedback_eq (guess code : Code) :
    get_feedback guess code =
      ((guess.zip code).countP (fun p => p.1 == p.2),
        (guess.map (fun g => code.count g)).sum
          - (guess.zip code).countP (fun p => p.1 == p.2)) :=
  rfl

theorem length_eq_four {α : Type} {l : List α} (h : l.length = 4) :
    ∃ a b c d, l = [a, b, c, d] := by
  rcases l with _ | ⟨a, _ | ⟨b, _ | ⟨c, _ | ⟨d, _ | ⟨e, t⟩⟩⟩⟩⟩ <;> simp at h
  exact ⟨a, b, c, d, rfl⟩

/-- For two duplicate-free lists, the source's double-generator count
`sum(g == s for g in guess for s in code)` is the number of shared values. -/
theorem cross_eq_inter (guess code : Code) (hg : guess.Nodup) (hc : code.Nodup) :
    (guess.map (fun g => code.count g)).sum
      = (guess.toFinset ∩ code.toFinset).card := by
  induction guess with
  | nil => simp
  | cons a g ih =>
    rcases List.nodup_cons.mp hg with ⟨ha, hg'⟩
    have ih' := ih hg'
    rw [List.map_cons, List.sum_cons, List.toFinset_cons]
    by_cases hm : a ∈ code
    · rw [List.count_eq_one_of_mem hc hm,
        Finset.insert_inter_of_mem (List.mem_toFinset.mpr hm),
        Finset.card_insert_of_not_mem
          (fun hx => ha (List.mem_toFinset.mp (Finset.mem_of_mem_inter_left hx)))]
      omega
    · rw [List.count_eq_zero.mpr hm,
        Finset.insert_inter_of_not_mem (fun hx => hm (List.mem_toFinset.mp hx))]
      omega

/-- The bulls count never exceeds the double-generator count, so the source's
`- bulls` never underflows. -/
theorem bulls_le_cross (guess : Code) : ∀ code : Code,
    (guess.zip code).countP (fun p => p.1 == p.2)
      ≤ (guess.map (fun g => code.count g)).sum := by
  induction guess with
  | nil => intro code; simp
  | cons a g ih =>
    intro code
    cases code with
    | nil => simp
    | cons b s =>
      rw [List.zip_cons_cons, List.countP_cons, List.map_cons, List.sum_cons]
      have h1 := ih s
      have h2 : (g.map (fun x => s.count x)).sum
          ≤ (g.map (fun x => (b :: s).count x)).sum := by
        apply List.sum_le_sum
        intro x _
        rw [List.count_cons]
        omega
      have h3 : (if (a, b).1 == (a, b).2 then 1 else 0) ≤ (b :: s).count a := by
        by_cases hab : a = b
        · simp [hab, List.count_cons]
        · simp [hab]
      omega

theorem bulls_eq_length_iff : ∀ guess code : Code, guess.length = code.length →
    ((guess.zip code).countP (fun p => p.1 == p.2) = guess.length ↔ guess = code) := by
  intro guess
  induction guess with
  | nil => intro code h; cases code <;> simp_all
  | cons a g ih =>
    intro code h
    cases code with
    | nil => simp at h
    | cons b s =>
      simp only [List.length_cons, Nat.succ_inj] at h
      rw [List.zip_cons_cons, List.countP_cons]
      have hle : (g.zip s).countP (fun p => p.1 == p.2) ≤ g.length :=
        le_trans (List.countP_le_length _) (by rw [List.length_zip]; omega)
      by_cases hab : a = b
      · subst hab
        simp only [List.length_cons]
        constructor
        · intro hc
          have hgl : (g.zip s).countP (fun p => p.1 == p.2) = g.length := by
            simp at hc; omega
          rw [(ih s h).mp hgl]
        · intro hc
          have hgs : g = s := by injection hc
          subst hgs
          simp
          exact (ih g h).mpr rfl
      · have h0 : (if (a, b).1 == (a, b).2 then 1 else 0) = 0 := by simp [hab]
        rw [h0]
        constructor
        · intro hc; simp at hc; omega
        · intro hc; injection hc; omega

theorem zip_self_countP : ∀ g : Code,
    (g.zip g).countP (fun p => p.1 == p.2) = g.length := by
  intro g
  induction g with
  | nil => simp
  | cons a t ih => rw [List.zip_cons_cons, List.countP_cons]; simp [ih]

theorem sum_count_self {g : Code} (hg : g.Nodup) :
    (g.map (fun x => g.count x)).sum = g.length := by
  have h : g.map (fun x => g.count x) = g.map (fun _ => 1) := by
    apply List.map_congr_left
    intro x hx
    exact List.count_eq_one_of_mem hg hx
  rw [h]
  simp [List.map_const]

/-- A guess scored against itself produces all bulls and no cows. -/
theorem feedback_self {g : Code} (hg : g.Nodup) :
    get_feedback g g = (g.length, 0) := by
  rw [get_feedback_eq, zip_self_countP, sum_count_self hg, Nat.sub_self]

theorem char_toNat_inj (c d : Char) (h : c.toNat = d.toNat) : c = d :=
  Char.eq_of_val_eq (UInt32.toNat.inj h)

theorem char_isDigit_bounds (c : Char) (h : c.isDigit = true) :
    48 ≤ c.toNat ∧ c.toNat ≤ 57 := by
  unfold Char.isDigit at h
  simp [Bool.and_eq_true] at h
  obtain ⟨h1, h2⟩ := h
  exact ⟨h1, h2⟩

/-- The `main` validation guarantees the parsed guess meets the engine's code
contract. -/
theorem validInput_parseGuess {input : List Char} (h : validInput input = true) :
    validCode (parseGuess input) := by
  unfold validInput at h
  simp only [Bool.and_eq_true, beq_iff_eq, List.all_eq_true] at h
  obtain ⟨⟨hlen, hdig⟩, hded⟩ := h
  have hnd : input.Nodup := by
    have hsub := List.dedup_sublist input
    have heq : input.dedup = input := hsub.eq_of_length (by omega)
    exact List.dedup_eq_self.mp heq
  refine ⟨by simp [parseGuess, hlen], ?_, ?_⟩
  · intro d hd
    simp only [parseGuess, List.mem_map] at hd
    obtain ⟨c, hc, rfl⟩ := hd
    have := char_isDigit_bounds c (hdig c hc)
    omega
  · apply hnd.map_on
    intro x hx y hy hxy
    have hbx := char_isDigit_bounds x (hdig x hx)
    have hby := char_isDigit_bounds y (hdig y hy)
    exact char_toNat_inj x y (by omega)

set_option maxRecDepth 8000 in
theorem allCodes_length : allCodes.length = 5040 := by
  have hr : List.range 10 = [0,1,2,3,4,5,6,7,8,9] := by decide
  unfold allCodes
  rw [hr]
  simp only [List.flatMap_cons, List.flatMap_nil, List.append_nil,
    List.filter_append, List.length_append]
  decide

theorem calculate_entropy_of_ne_nil {possible : List Code}
    (h : possible.length ≠ 0) :
    calculate_entropy possible = Real.logb 2 possible.length := by
  have hn : ((possible.length : ℝ)) ≠ 0 := Nat.cast_ne_zero.mpr h
  unfold calculate_entropy
  rw [if_neg h, List.map_replicate, List.sum_replicate, one_div_one_div,
    nsmul_eq_mul, ← mul_assoc, mul_one_div_cancel hn, one_mul]

theorem calculate_entropy_nil {possible : List Code}
    (h : possible.length = 0) : calculate_entropy possible = 0 := by
  unfold calculate_entropy
  rw [if_pos h]

theorem stepAccepted_possible (sess : Session) (input : List Char) :
    (stepAccepted sess input).possible
      = update_possibilities sess.possible (parseGuess input)
          (get_feedback (parseGuess input) sess.secret).1
          (get_feedback (parseGuess input) sess.secret).2 :=
  rfl

theorem stepAccepted_attempts (sess : Session) (input : List Char) :
    (stepAccepted sess input).attempts = sess.attempts + 1 :=
  rfl

theorem stepAccepted_entropyHistory (sess : Session) (input : List Char) :
    (stepAccepted sess input).entropyHistory
      = sess.entropyHistory ++ [calculate_entropy (stepAccepted sess input).possible] :=
  rfl

theorem stepAccepted_gameOver (sess : Session) (input : List Char) :
    (stepAccepted sess input).gameOver
      = ((get_feedback (parseGuess input) sess.secret).1 == 4) :=
  rfl

theorem stepAccepted_secret (sess : Session) (input : List Char) :
    (stepAccepted sess input).secret = sess.secret :=
  rfl

theorem submitGuess_gameOver {sess : Session} (input : List Char)
    (h : sess.gameOver = true) : submitGuess sess input = sess := by
  unfold submitGuess
  rw [if_pos h]

theorem submitGuess_rejected {sess : Session} {input : List Char}
    (h : validInput input = false) : submitGuess sess input = sess := by
  unfold submitGuess
  by_cases h1 : sess.gameOver
  · rw [if_pos h1]
  · rw [if_neg h1, if_neg (by simp [h])]

theorem submitGuess_accepted {sess : Session} {input : List Char}
    (h1 : sess.gameOver = false) (h2 : validInput input = true) :
    submitGuess sess input = stepAccepted sess input := by
  unfold submitGuess
  rw [if_neg (by simp [h1]), if_pos h2]

/-- One step can only shrink the candidate set. -/
theorem submitGuess_possible_subset (sess : Session) (input : List Char) :
    (submitGuess sess input).possible ⊆ sess.possible := by
  by_cases h1 : sess.gameOver
  · rw [submitGuess_gameOver input h1]
    exact List.Subset.refl _
  · have h1' : sess.gameOver = false := by simpa using h1
    cases h2 : validInput input
    · rw [submitGuess_rejected h2]
      exact List.Subset.refl _
    · rw [submitGuess_accepted h1' h2, stepAccepted_possible]
      intro x hx
      exact (List.mem_filter.mp hx).1

/-- `attempts` advances by one exactly on accepted inputs. -/
theorem submitGuess_attempts (sess : Session) (input : List Char) :
    (submitGuess sess input).attempts
      = sess.attempts
        + (if sess.gameOver = false ∧ validInput input = true then 1 else 0) := by
  by_cases h1 : sess.gameOver
  · rw [submitGuess_gameOver input h1]
    simp [h1]
  · have h1' : sess.gameOver = false := by simpa using h1
    cases h2 : validInput input
    · rw [submitGuess_rejected h2]
      simp [h2]
    · rw [submitGuess_accepted h1' h2, stepAccepted_attempts]
      simp [h1', h2]

theorem foldl_attempts : ∀ (inputs : List (List Char)) (sess : Session),
    (inputs.foldl submitGuess sess).attempts
      = sess.attempts + countAccepted sess inputs := by
  intro inputs
  induction inputs with
  | nil => intro sess; simp [countAccepted]
  | cons i rest ih =>
    intro sess
    rw [List.foldl_cons, ih]
    simp only [countAccepted]
    have h := submitGuess_attempts sess i
    omega

theorem filter_length_lt {α : Type} (p : α → Bool) :
    ∀ l : List α, ∀ x ∈ l, p x = false → (l.filter p).length < l.length := by
  intro l
  induction l with
  | nil => intro x hx; simp at hx
  | cons a t ih =>
    intro x hx hpx
    rcases List.mem_cons.mp hx with rfl | hxt
    · rw [List.filter_cons, hpx]
      simp only [List.length_cons]
      exact Nat.lt_succ_of_le (List.length_filter_le _ _)
    · rw [List.filter_cons]
      cases hpa : p a
      · simp only [Bool.false_eq_true, if_false, List.length_cons]
        exact Nat.lt_succ_of_lt (ih x hxt hpx)
      · rw [if_pos (by trivial)]
        simp only [List.length_cons, Nat.add_lt_add_iff_right]
        exact ih x hxt hpx

theorem entropy_allCodes : calculate_entropy allCodes = Real.logb 2 5040 := by
  rw [calculate_entropy_of_ne_nil (by rw [allCodes_length]; omega), allCodes_length]
  norm_num

theorem history_length_step (sess : Session) (input : List Char)
    (h : sess.entropyHistory.length = sess.attempts + 1) :
    (submitGuess sess input).entropyHistory.length
      = (submitGuess sess input).attempts + 1 := by
  by_cases h1 : sess.gameOver
  · rw [submitGuess_gameOver input h1]
    exact h
  · have h1' : sess.gameOver = false := by simpa using h1
    cases h2 : validInput input
    · rw [submitGuess_rejected h2]
      exact h
    · rw [submitGuess_accepted h1' h2, stepAccepted_entropyHistory,
        stepAccepted_attempts]
      simp [h]

/-! ## Claims -/

/-- C1: for every candidate set, valid guess `g` and secret, if the secret is
a member of the candidate set then it is still a member after filtering with
`g` and the feedback `score(g, secret)`; likewise, one accepted `submitGuess`
step of an in-progress session never excludes the session's secret. -/
theorem C1_secret_preservation :
    (∀ (possible : List Code) (guess secret : Code), validCode guess →
      secret ∈ possible →
      secret ∈ update_possibilities possible guess
        (get_feedback guess secret).1 (get_feedback guess secret).2)
    ∧ ∀ (sess : Session) (input : List Char), sess.gameOver = false →
        validInput input = true → sess.secret ∈ sess.possible →
        sess.secret ∈ (submitGuess sess input).possible := by
  have pure : ∀ (possible : List Code) (guess secret : Code),
      secret ∈ possible →
      secret ∈ update_possibilities possible guess
        (get_feedback guess secret).1 (get_feedback guess secret).2 := by
    intro possible guess secret hmem
    unfold update_possibilities
    refine List.mem_filter.mpr ⟨hmem, ?_⟩
    simp
  refine ⟨fun p g s _ hm => pure p g s hm, ?_⟩
  intro sess input h1 h2 hm
  rw [submitGuess_accepted h1 h2, stepAccepted_possible]
  exact pure _ _ _ hm

theorem C1_secret_preservation_witness :
    validCode [1,2,3,4] ∧ ([1,3,2,5] : Code) ∈ [[1,3,2,5], [5,6,7,8]]
    ∧ ([1,3,2,5] : Code) ∈ update_possibilities [[1,3,2,5], [5,6,7,8]] [1,2,3,4]
        (get_feedback [1,2,3,4] [1,3,2,5]).1 (get_feedback [1,2,3,4] [1,3,2,5]).2 :=
  ⟨by decide, by decide,
    C1_secret_preservation.1 [[1,3,2,5], [5,6,7,8]] [1,2,3,4] [1,3,2,5]
      (by decide) (by decide)⟩

/-- C2: for valid (length-4, distinct-digit) guess/code pairs, `get_feedback`
returns bulls = the number of agreeing positions and cows = the number of
shared digit values (a set intersection) minus bulls; in particular
`score([1,2,3,4], [1,3,2,5]) = (1, 2)`. -/
theorem C2_scoring_algorithm :
    (∀ guess code : Code, validCode guess → validCode code →
      get_feedback guess code = specFeedback guess code)
    ∧ get_feedback [1,2,3,4] [1,3,2,5] = (1, 2) := by
  constructor
  · intro guess code hg hc
    obtain ⟨hgl, _, hgn⟩ := hg
    obtain ⟨hcl, _, hcn⟩ := hc
    have hcross := cross_eq_inter guess code hgn hcn
    have hbulls : (guess.zip code).countP (fun p => p.1 == p.2)
        = specBulls guess code := by
      obtain ⟨a1, a2, a3, a4, rfl⟩ := length_eq_four hgl
      obtain ⟨b1, b2, b3, b4, rfl⟩ := length_eq_four hcl
      have hr : List.range 4 = [0,1,2,3] := by decide
      simp [specBulls, hr, List.countP_cons]
    rw [get_feedback_eq]
    unfold specFeedback
    rw [← hbulls, ← hcross]
  · decide

theorem C2_scoring_algorithm_witness :
    validCode [1,2,3,4] ∧ validCode [1,3,2,5]
    ∧ get_feedback [1,2,3,4] [1,3,2,5] = specFeedback [1,2,3,4] [1,3,2,5]
    ∧ specFeedback [1,2,3,4] [1,3,2,5] = (1, 2) :=
  ⟨by decide, by decide,
    C2_scoring_algorithm.1 [1,2,3,4] [1,3,2,5] (by decide) (by decide), by decide⟩

/-- C7: filtering returns a subset, so the candidate set's size never grows;
consequently a `submitGuess` step never increases `|possible|`. -/
theorem C7_monotonic_shrinkage :
    (∀ (possible : List Code) (guess : Code) (bulls cows : Nat),
      update_possibilities possible guess bulls cows ⊆ possible
      ∧ (update_possibilities possible guess bulls cows).length ≤ possible.length)
    ∧ ∀ (sess : Session) (input : List Char),
        (submitGuess sess input).possible.length ≤ sess.possible.length := by
  constructor
  · intro possible guess bulls cows
    constructor
    · intro x hx
      exact (List.mem_filter.mp hx).1
    · exact List.length_filter_le _ _
  · intro sess input
    by_cases h1 : sess.gameOver
    · rw [submitGuess_gameOver input h1]
    · have h1' : sess.gameOver = false := by simpa using h1
      cases h2 : validInput input
      · rw [submitGuess_rejected h2]
      · rw [submitGuess_accepted h1' h2, stepAccepted_possible]
        exact List.length_filter_le _ _

theorem C7_monotonic_shrinkage_witness :
    (update_possibilities [[1,3,2,5], [5,6,7,8]] [1,2,3,4] 1 2).length ≤ 2 :=
  (C7_monotonic_shrinkage.1 [[1,3,2,5], [5,6,7,8]] [1,2,3,4] 1 2).2

/-- C8: for valid guess/code pairs the feedback `(bulls, cows)` satisfies
`0 ≤ bulls ≤ 4`, `0 ≤ cows ≤ 4` and `bulls + cows ≤ 4`. -/
theorem C8_feedback_bounds :
    ∀ (guess code : Code) (bulls cows : Nat), validCode guess → validCode code →
      get_feedback guess code = (bulls, cows) →
      0 ≤ bulls ∧ bulls ≤ 4 ∧ 0 ≤ cows ∧ cows ≤ 4 ∧ bulls + cows ≤ 4 := by
  intro guess code bulls cows hg hc heq
  obtain ⟨hgl, _, hgn⟩ := hg
  obtain ⟨hcl, _, hcn⟩ := hc
  rw [get_feedback_eq] at heq
  injection heq with hb hw
  have hble : (guess.zip code).countP (fun p => p.1 == p.2) ≤ 4 := by
    refine le_trans (List.countP_le_length _) ?_
    rw [List.length_zip, hgl, hcl]
    omega
  have hcross4 : (guess.map (fun g => code.count g)).sum ≤ 4 := by
    calc (guess.map (fun g => code.count g)).sum
        ≤ (guess.map (fun _ => 1)).sum := by
          refine List.sum_le_sum ?_
          intro x _
          exact (List.nodup_iff_count_le_one.mp hcn) x
      _ = guess.length := by simp [List.map_const]
      _ ≤ 4 := le_of_eq hgl
  have hbc := bulls_le_cross guess code
  omega

theorem C8_feedback_bounds_witness :
    validCode [1,2,3,4] ∧ validCode [1,3,2,5]
    ∧ (0 ≤ 1 ∧ 1 ≤ 4 ∧ 0 ≤ 2 ∧ 2 ≤ 4 ∧ 1 + 2 ≤ 4) :=
  ⟨by decide, by decide,
    C8_feedback_bounds [1,2,3,4] [1,3,2,5] 1 2 (by decide) (by decide) (by decide)⟩

/-- C10: a valid guess scored with any feedback other than `(4, 0)` never
survives the filter built from itself (since `score(g, g) = (4, 0)`), so the
candidate set strictly shrinks whenever the guess was a candidate; suggestions
are drawn from the candidate set, and a code absent from the candidate set can
never reappear in it over any continuation of the session. -/
theorem C10_wrong_guess_eliminated :
    (∀ (possible : List Code) (guess : Code) (bulls cows : Nat),
      validCode guess → (bulls, cows) ≠ (4, 0) →
      guess ∉ update_possibilities possible guess bulls cows)
    ∧ (∀ (possible : List Code) (guess : Code) (bulls cows : Nat),
      validCode guess → (bulls, cows) ≠ (4, 0) → guess ∈ possible →
      (update_possibilities possible guess bulls cows).length < possible.length)
    ∧ (∀ (possible perm : List Code) (g : Code), perm.Perm possible →
      g ∉ possible → g ∉ suggest_next_guesses possible perm)
    ∧ ∀ (sess : Session) (inputs : List (List Char)) (g : Code),
      g ∉ sess.possible → g ∉ (inputs.foldl submitGuess sess).possible := by
  have hpred : ∀ (guess : Code) (bulls cows : Nat), validCode guess →
      (bulls, cows) ≠ (4, 0) →
      (get_feedback guess guess == (bulls, cows)) = false := by
    intro guess bulls cows hv hne
    obtain ⟨hl, _, hn⟩ := hv
    have hself : get_feedback guess guess = (4, 0) := by
      rw [feedback_self hn, hl]
    rw [hself]
    exact beq_eq_false_iff_ne.mpr fun h => hne h.symm
  refine ⟨?_, ?_, ?_, ?_⟩
  · intro possible guess bulls cows hv hne hmem
    have hp := (List.mem_filter.mp hmem).2
    rw [hpred guess bulls cows hv hne] at hp
    exact Bool.false_ne_true hp
  · intro possible guess bulls cows hv hne hmem
    exact filter_length_lt _ possible guess hmem (hpred guess bulls cows hv hne)
  · intro possible perm g hperm hg
    unfold suggest_next_guesses
    by_cases he : possible.isEmpty
    · simp [he]
    · rw [if_neg he]
      intro hmem
      exact hg (hperm.mem_iff.mp (List.mem_of_mem_take hmem))
  · intro sess inputs
    induction inputs generalizing sess with
    | nil => intro g hg; exact hg
    | cons i rest ih =>
      intro g hg
      rw [List.foldl_cons]
      exact ih (submitGuess sess i) g
        (fun hmem => hg (submitGuess_possible_subset sess i hmem))

theorem C10_wrong_guess_eliminated_witness :
    (([1,2,3,4] : Code) ∉ update_possibilities [[1,2,3,4], [1,3,2,5]] [1,2,3,4] 1 2)
    ∧ (update_possibilities [[1,2,3,4], [1,3,2,5]] [1,2,3,4] 1 2).length < 2 :=
  ⟨C10_wrong_guess_eliminated.1 [[1,2,3,4], [1,3,2,5]] [1,2,3,4] 1 2
      (by decide) (by decide),
    C10_wrong_guess_eliminated.2.1 [[1,2,3,4], [1,3,2,5]] [1,2,3,4] 1 2
      (by decide) (by decide) (by decide)⟩

/-- C6: an input that fails validation (wrong length, non-digit, or repeated
digit) leaves the whole session — attempts, candidate set, entropy history,
secret, and the in-progress/won state — exactly as it was. -/
theorem C6_rejected_guess_atomic :
    ∀ (sess : Session) (input : List Char), validInput input = false →
      submitGuess sess input = sess
      ∧ (submitGuess sess input).attempts = sess.attempts
      ∧ (submitGuess sess input).possible = sess.possible
      ∧ (submitGuess sess input).entropyHistory = sess.entropyHistory
      ∧ (submitGuess sess input).secret = sess.secret
      ∧ (submitGuess sess input).gameOver = sess.gameOver := by
  intro sess input h
  have heq : submitGuess sess input = sess := submitGuess_rejected h
  rw [heq]
  exact ⟨rfl, rfl, rfl, rfl, rfl, rfl⟩

theorem C6_rejected_guess_atomic_witness :
    validInput ['1','1','2','3'] = false
    ∧ submitGuess (initSession [0,1,2,3]) ['1','1','2','3']
        = initSession [0,1,2,3] :=
  ⟨by decide,
    (C6_rejected_guess_atomic (initSession [0,1,2,3]) ['1','1','2','3']
      (by decide)).1⟩

/-- C3: a guess scores 4 bulls against a secret exactly when it equals the
secret; a guess scored against itself yields `(4, 0)`; submitting the secret
to an in-progress session yields feedback `(4, 0)`, sets the terminal won
state and increments `attempts`; and in every session `attempts` equals the
number of accepted guesses submitted, the winning one included. -/
theorem C3_win_condition :
    (∀ guess secret : Code, validCode guess → validCode secret →
      ((get_feedback guess secret).1 = 4 ↔ guess = secret))
    ∧ (∀ secret : Code, validCode secret → get_feedback secret secret = (4, 0))
    ∧ (∀ (sess : Session) (input : List Char), sess.gameOver = false →
        validInput input = true → parseGuess input = sess.secret →
        get_feedback (parseGuess input) sess.secret = (4, 0)
        ∧ (submitGuess sess input).gameOver = true
        ∧ (submitGuess sess input).attempts = sess.attempts + 1)
    ∧ ∀ (secret : Code) (inputs : List (List Char)),
        (runGame secret inputs).attempts
          = countAccepted (initSession secret) inputs := by
  refine ⟨?_, ?_, ?_, ?_⟩
  · intro guess secret hg hs
    obtain ⟨hgl, _, _⟩ := hg
    obtain ⟨hsl, _, _⟩ := hs
    rw [get_feedback_eq]
    have h := bulls_eq_length_iff guess secret (by omega)
    rw [hgl] at h
    exact h
  · intro secret hs
    obtain ⟨hsl, _, hsn⟩ := hs
    rw [feedback_self hsn, hsl]
  · intro sess input h1 h2 hg
    have hv : validCode sess.secret := hg ▸ validInput_parseGuess h2
    obtain ⟨hsl, _, hsn⟩ := hv
    have hfb : get_feedback (parseGuess input) sess.secret = (4, 0) := by
      rw [hg, feedback_self hsn, hsl]
    refine ⟨hfb, ?_, ?_⟩
    · rw [submitGuess_accepted h1 h2, stepAccepted_gameOver, hfb]
      decide
    · rw [submitGuess_accepted h1 h2, stepAccepted_attempts]
  · intro secret inputs
    unfold runGame
    rw [foldl_attempts]
    simp [initSession]

theorem C3_win_condition_witness :
    validCode [1,3,2,5]
    ∧ (get_feedback [1,3,2,5] [1,3,2,5]).1 = 4
    ∧ get_feedback [1,3,2,5] [1,3,2,5] = (4, 0) :=
  ⟨by decide,
    (C3_win_condition.1 [1,3,2,5] [1,3,2,5] (by decide) (by decide)).mpr rfl,
    C3_win_condition.2.1 [1,3,2,5] (by decide)⟩

/-- C9: a fresh (or reset) session has `attempts = 0`, the full 5040-code
candidate set and the singleton history `[log2 5040]`; every accepted guess
increments `attempts` by one and appends exactly one entropy value; and in
every reachable session state `|entropyHistory| = attempts + 1`. -/
theorem C9_history_length_invariant :
    (∀ secret : Code, (initSession secret).attempts = 0
      ∧ (initSession secret).possible.length = 5040
      ∧ (initSession secret).entropyHistory = [Real.logb 2 5040])
    ∧ (∀ (old : Session) (newSecret : Code),
        resetGame old newSecret = initSession newSecret)
    ∧ (∀ (sess : Session) (input : List Char), sess.gameOver = false →
        validInput input = true →
        (submitGuess sess input).attempts = sess.attempts + 1
        ∧ (submitGuess sess input).entropyHistory
            = sess.entropyHistory
              ++ [calculate_entropy (submitGuess sess input).possible])
    ∧ ∀ (secret : Code) (inputs : List (List Char)),
        (runGame secret inputs).entropyHistory.length
          = (runGame secret inputs).attempts + 1 := by
  have main : ∀ (inputs : List (List Char)) (sess : Session),
      sess.entropyHistory.length = sess.attempts + 1 →
      (inputs.foldl submitGuess sess).entropyHistory.length
        = (inputs.foldl submitGuess sess).attempts + 1 := by
    intro inputs
    induction inputs with
    | nil => intro sess h; exact h
    | cons i rest ih =>
      intro sess h
      rw [List.foldl_cons]
      exact ih _ (history_length_step sess i h)
  refine ⟨?_, fun _ _ => rfl, ?_, ?_⟩
  · intro secret
    refine ⟨rfl, ?_, ?_⟩
    · simp only [initSession]
      exact allCodes_length
    · simp only [initSession]
      rw [entropy_allCodes]
  · intro sess input h1 h2
    refine ⟨?_, ?_⟩
    · rw [submitGuess_accepted h1 h2, stepAccepted_attempts]
    · rw [submitGuess_accepted h1 h2, stepAccepted_entropyHistory]
  · intro secret inputs
    exact main inputs (initSession secret) (by simp [initSession])

theorem C9_history_length_invariant_witness :
    (initSession [0,1,2,3]).gameOver = false
    ∧ validInput ['1','2','3','4'] = true
    ∧ (submitGuess (initSession [0,1,2,3]) ['1','2','3','4']).attempts
        = (initSession [0,1,2,3]).attempts + 1 :=
  ⟨rfl, by decide,
    (C9_history_length_invariant.2.2.1 (initSession [0,1,2,3]) ['1','2','3','4']
      rfl (by decide)).1⟩

/-- C4: the entropy of a candidate set of size `n` is `log2 n` for `n > 0` and
`0` for `n = 0`; in particular the entropy of the full 5040-code universe is
`log2 5040`, which lies strictly between 12.29 and 12.30. -/
theorem C4_entropy_computation :
    (∀ possible : List Code, 0 < possible.length →
      calculate_entropy possible = Real.logb 2 possible.length)
    ∧ (∀ possible : List Code, possible.length = 0 →
      calculate_entropy possible = 0)
    ∧ calculate_entropy allCodes = Real.logb 2 5040
    ∧ (1229 / 100 : ℝ) < Real.logb 2 5040
    ∧ Real.logb 2 5040 < (1230 / 100 : ℝ) := by
  refine ⟨?_, ?_, entropy_allCodes, ?_, ?_⟩
  · intro possible h
    exact calculate_entropy_of_ne_nil (by omega)
  · intro possible h
    exact calculate_entropy_nil h
  · rw [Real.lt_logb_iff_rpow_lt one_lt_two (by norm_num : (0:ℝ) < 5040)]
    refine lt_of_pow_lt_pow_left₀ 100 (by norm_num) ?_
    have e1 : ((2:ℝ) ^ ((1229:ℝ) / 100)) ^ (100:ℕ) = (2:ℝ) ^ (1229:ℕ) := by
      rw [← Real.rpow_natCast ((2:ℝ) ^ ((1229:ℝ) / 100)) 100,
        ← Real.rpow_mul (by norm_num : (0:ℝ) ≤ 2)]
      have e2 : ((1229:ℝ) / 100) * ((100:ℕ):ℝ) = ((1229:ℕ):ℝ) := by
        push_cast
        ring
      rw [e2, Real.rpow_natCast]
    rw [e1]
    have hnat : (2:ℕ) ^ 1229 < 5040 ^ 100 := by norm_num
    exact_mod_cast hnat
  · rw [Real.logb_lt_iff_lt_rpow one_lt_two (by norm_num : (0:ℝ) < 5040)]
    refine lt_of_pow_lt_pow_left₀ 100 (Real.rpow_nonneg (by norm_num) _) ?_
    have e1 : ((2:ℝ) ^ ((1230:ℝ) / 100)) ^ (100:ℕ) = (2:ℝ) ^ (1230:ℕ) := by
      rw [← Real.rpow_natCast ((2:ℝ) ^ ((1230:ℝ) / 100)) 100,
        ← Real.rpow_mul (by norm_num : (0:ℝ) ≤ 2)]
      have e2 : ((1230:ℝ) / 100) * ((100:ℕ):ℝ) = ((1230:ℕ):ℝ) := by
        push_cast
        ring
      rw [e2, Real.rpow_natCast]
    rw [e1]
    have hnat : (5040:ℕ) ^ 100 < 2 ^ 1230 := by norm_num
    exact_mod_cast hnat

theorem C4_entropy_computation_witness :
    0 < ([[0,1,2,3], [4,5,6,7]] : List Code).length
    ∧ calculate_entropy [[0,1,2,3], [4,5,6,7]]
        = Real.logb 2 (([[0,1,2,3], [4,5,6,7]] : List Code).length) :=
  ⟨by decide, C4_entropy_computation.1 [[0,1,2,3], [4,5,6,7]] (by decide)⟩

/-- C5 as stated is false for the `bully_bot` variant: with a single remaining
candidate, its `suggest_next_guesses` returns the empty list, not
`min(3, 1) = 1` suggestions. -/
theorem C5_guess_advisor_counterexample :
    ¬ ((bully_suggest_next_guesses [[0,1,2,3]] [[0,1,2,3]]).length
        = min 3 ([[0,1,2,3]] : List Code).length) := by
  decide

/-- C5 (amended): the `gamebot` and `Cowculator` variants (`k = 10`) return
exactly `min(10, |S|)` codes, all members of `S`, without repeats — hence all
of `S` when `|S| < 10` and the empty sequence when `S` is empty; the
`bully_bot` variant (`k = 3`) returns 3 such codes when `|S| ≥ 3` but the
empty sequence whenever `|S| < 3`, so for `0 < |S| < 3` it does not return
`min(3, |S|)` codes. -/
theorem C5_guess_advisor :
    (∀ possible perm : List Code, perm.Perm possible → possible.Nodup →
      (suggest_next_guesses possible perm).length = min 10 possible.length
      ∧ (∀ x ∈ suggest_next_guesses possible perm, x ∈ possible)
      ∧ (suggest_next_guesses possible perm).Nodup
      ∧ (possible.length < 10 →
          ∀ x ∈ possible, x ∈ suggest_next_guesses possible perm))
    ∧ (∀ possible perm : List Code, perm.Perm possible → possible.Nodup →
      (cow_suggest_next_guesses possible perm).length = min 10 possible.length
      ∧ (∀ x ∈ cow_suggest_next_guesses possible perm, x ∈ possible)
      ∧ (cow_suggest_next_guesses possible perm).Nodup)
    ∧ (∀ possible perm : List Code, perm.Perm possible → possible.Nodup →
      3 ≤ possible.length →
      (bully_suggest_next_guesses possible perm).length = 3
      ∧ (∀ x ∈ bully_suggest_next_guesses possible perm, x ∈ possible)
      ∧ (bully_suggest_next_guesses possible perm).Nodup)
    ∧ ∀ possible perm : List Code, possible.length < 3 →
      bully_suggest_next_guesses possible perm = [] := by
  have hlen : ∀ (possible perm : List Code) (k : Nat), perm.Perm possible →
      (perm.take k).length = min k possible.length := by
    intro possible perm k hperm
    rw [List.length_take, hperm.length_eq]
  have hmem : ∀ (possible perm : List Code) (k : Nat), perm.Perm possible →
      ∀ x ∈ perm.take k, x ∈ possible := by
    intro possible perm k hperm x hx
    exact hperm.mem_iff.mp (List.mem_of_mem_take hx)
  have hnd : ∀ (possible perm : List Code) (k : Nat), perm.Perm possible →
      possible.Nodup → (perm.take k).Nodup := by
    intro possible perm k hperm hnodup
    exact ((hperm.nodup_iff).mpr hnodup).sublist (List.take_sublist k perm)
  refine ⟨?_, ?_, ?_, ?_⟩
  · intro possible perm hperm hnodup
    unfold suggest_next_guesses
    by_cases he : possible.isEmpty
    · have hpe : possible = [] := List.isEmpty_iff.mp he
      subst hpe
      simp
    · rw [if_neg he]
      refine ⟨?_, hmem possible perm _ hperm,
        hnd possible perm _ hperm hnodup, ?_⟩
      · rw [hlen possible perm _ hperm]
        omega
      intro hlt x hx
      have htake : perm.take (min 10 possible.length) = perm := by
        rw [min_eq_right (le_of_lt hlt), ← hperm.length_eq, List.take_length]
      rw [htake]
      exact hperm.mem_iff.mpr hx
  · intro possible perm hperm hnodup
    refine ⟨?_, hmem possible perm _ hperm, hnd possible perm _ hperm hnodup⟩
    unfold cow_suggest_next_guesses
    rw [hlen possible perm _ hperm]
    omega
  · intro possible perm hperm hnodup h3
    unfold bully_suggest_next_guesses
    rw [if_pos h3]
    refine ⟨?_, hmem possible perm _ hperm, hnd possible perm _ hperm hnodup⟩
    rw [hlen possible perm 3 hperm]
    omega
  · intro possible perm hlt
    unfold bully_suggest_next_guesses
    rw [if_neg (by omega)]

theorem C5_guess_advisor_witness :
    ([[1,2,3,4], [1,3,2,5]] : List Code).Perm [[1,3,2,5], [1,2,3,4]]
    ∧ ([[1,3,2,5], [1,2,3,4]] : List Code).Nodup
    ∧ (suggest_next_guesses [[1,3,2,5], [1,2,3,4]] [[1,2,3,4], [1,3,2,5]]).length
        = min 10 ([[1,3,2,5], [1,2,3,4]] : List Code).length
    ∧ bully_suggest_next_guesses [[1,3,2,5]] [[1,3,2,5]] = [] :=
  ⟨by decide, by decide,
    (C5_guess_advisor.1 [[1,3,2,5], [1,2,3,4]] [[1,2,3,4], [1,3,2,5]]
      (by decide) (by decide)).1,
    C5_guess_advisor.2.2.2 [[1,3,2,5]] [[1,3,2,5]] (by decide)⟩

end GameBot
